import Mathlib

/-!
Shallow embedding of the query-result caching layer of the Insight repository and
relevance-scored search, taken from the two backend route files
(the papers route file and Back-End/routes/interactions.js).

Strings are modelled as lists of characters so that every definition is
executable by the kernel.  The JavaScript pieces modelled here:

* `getCacheKey(params) = JSON.stringify(params)` — property order preserved,
  strings quoted with backslash escapes for quote and backslash, numbers in
  decimal.  (Control-character escapes of JSON.stringify are elided: the
  parameters serialized by the routes are query strings and identifiers.)
* the module-level `Map` caches with TTL read check, size-based first-key
  eviction and the substring scan of `invalidateUserCache`.
* the relevance score, ORDER BY chains and empty-query guard of the search route.
-/

namespace Insight

abbrev Str := List Char

/-! ### JavaScript string helpers -/

/-- Prefix test on character lists (`pat` is a prefix of the second list). -/
def hasPrefixChars : Str → Str → Bool
  | [], _ => true
  | _ :: _, [] => false
  | p :: ps, c :: cs => p == c && hasPrefixChars ps cs

/-- `hay.includes(pat)` of JavaScript: substring occurrence test. -/
def jsIncludesAux (pat : Str) : Str → Bool
  | [] => hasPrefixChars pat []
  | c :: rest => hasPrefixChars pat (c :: rest) || jsIncludesAux pat rest

def jsIncludes (hay pat : Str) : Bool := jsIncludesAux pat hay

/-- `s.trim()` of JavaScript: drop whitespace from both ends. -/
def trimChars (s : Str) : Str :=
  ((s.dropWhile Char.isWhitespace).reverse.dropWhile Char.isWhitespace).reverse

/-- Helper for whitespace splitting, carrying the (reversed) current word. -/
def wordsAux : Str → Str → List Str
  | acc, [] => if acc.isEmpty then [] else [acc.reverse]
  | acc, c :: cs =>
    if c.isWhitespace then
      if acc.isEmpty then wordsAux [] cs else acc.reverse :: wordsAux [] cs
    else wordsAux (c :: acc) cs

/-- `query.trim().split(/\s+/).filter(term => term.length > 0)` from the
search route: the non-empty whitespace-separated terms of the query. -/
def searchTermsOf (q : Str) : List Str := wordsAux [] (trimChars q)

def lowerStr (s : Str) : Str := s.map Char.toLower

/-- SQL `txt LIKE '%pat%'` under the case-insensitive collation used by the
database: case-insensitive substring containment (ASCII case folding). -/
def likeContains (txt pat : Str) : Bool := jsIncludes (lowerStr txt) (lowerStr pat)

/-- LIKE against a nullable column: `NULL LIKE pat` is not true. -/
def optLike (txt : Option Str) (pat : Str) : Bool :=
  (txt.map (fun t => likeContains t pat)).getD false

/-! ### `getCacheKey`: JSON.stringify of the parameter object

`function getCacheKey(params) (return JSON.stringify(params))` — identical in
both route files.  A parameter object is modelled as the ordered list of its
properties; values are the kinds the routes put in cache keys: strings,
(natural) numbers and booleans.  `JSON.stringify` serializes properties in
insertion order. -/

inductive JVal where
  | jstr (s : Str)
  | jnum (n : Nat)
  | jbool (b : Bool)
deriving DecidableEq

/-- JSON string escaping of one character (quote and backslash). -/
def escChar (c : Char) : Str := if c = '"' ∨ c = '\\' then ['\\', c] else [c]

def escapeChars : Str → Str
  | [] => []
  | c :: cs => escChar c ++ escapeChars cs

def quoteChars (s : Str) : Str := '"' :: (escapeChars s ++ ['"'])

def digitChar (n : Nat) : Char :=
  match n with
  | 0 => '0' | 1 => '1' | 2 => '2' | 3 => '3' | 4 => '4'
  | 5 => '5' | 6 => '6' | 7 => '7' | 8 => '8' | _ => '9'

/-- Decimal digits of a number, fuelled so that the kernel can reduce it. -/
def numCharsAux : Nat → Nat → Str
  | 0, _ => []
  | fuel + 1, n =>
    if n < 10 then [digitChar n] else numCharsAux fuel (n / 10) ++ [digitChar (n % 10)]

/-- Decimal representation of a natural number, as JSON.stringify prints it. -/
def numChars (n : Nat) : Str := numCharsAux (n + 1) n

def serVal : JVal → Str
  | .jstr s => quoteChars s
  | .jnum n => numChars n
  | .jbool b => if b then ("true".data) else ("false".data)

def serProp (p : Str × JVal) : Str := quoteChars p.1 ++ ':' :: serVal p.2

def serProps : List (Str × JVal) → Str
  | [] => []
  | [p] => serProp p
  | p :: q :: ps => serProp p ++ ',' :: serProps (q :: ps)

/-- `getCacheKey(params) = JSON.stringify(params)` on the ordered property
list of the parameter object. -/
def getCacheKey (params : List (Str × JVal)) : Str :=
  '\x7b' :: (serProps params ++ ['\x7d'])

/-- Convenience wrapper taking `String` property names. -/
def getCacheKeyS (params : List (String × JVal)) : Str :=
  getCacheKey (params.map fun p => (p.1.data, p.2))

/-! ### The query cache

`const queryCache = new Map()` in each route file, entries
`(data, timestamp)`.  A JS `Map` iterates in insertion order; updating an
existing key keeps its position, inserting a new key appends.  We model it as
the ordered association list of the map. -/

structure CacheEntry (α : Type) where
  timestamp : Nat
  data : α
deriving DecidableEq

abbrev Cache (α : Type) := List (Str × CacheEntry α)

def mapGet : Cache α → Str → Option (CacheEntry α)
  | [], _ => none
  | e :: c, k => if e.1 = k then some e.2 else mapGet c k

/-- `Map.set`: update an existing key in place (keeping its position in the
iteration order) or append a new key at the end. -/
def mapSet : Cache α → Str → CacheEntry α → Cache α
  | [], k, e => [(k, e)]
  | p :: c, k, e => if p.1 = k then (k, e) :: c else p :: mapSet c k e

/-- `Map.delete`: remove the entry of a key (a `Map` holds a key at most
once). -/
def mapDelete : Cache α → Str → Cache α
  | [], _ => []
  | p :: c, k => if p.1 = k then mapDelete c k else p :: mapDelete c k

/-- `queryCache.keys().next().value`: the first key in insertion order. -/
def cacheFirstKey (c : Cache α) : Option Str := c.head?.map (fun e => e.1)

/-- `getCachedQuery(key)`: return the data when present and fresh
(`Date.now() - cached.timestamp < CACHE_TTL`), otherwise delete the key and
return null.  Returns the result together with the cache state afterwards. -/
def getCachedQuery (ttl : Nat) (now : Nat) (c : Cache α) (k : Str) :
    Option α × Cache α :=
  match mapGet c k with
  | some e => if now - e.timestamp < ttl then (some e.data, c) else (none, mapDelete c k)
  | none => (none, mapDelete c k)

/-- `setCachedQuery(key, data)`: store with the current timestamp, then if the
size exceeds the capacity delete the first (oldest-inserted) key. -/
def setCachedQuery (cap : Nat) (now : Nat) (c : Cache α) (k : Str) (v : α) :
    Cache α :=
  let c1 := mapSet c k ⟨now, v⟩
  if c1.length > cap then
    match cacheFirstKey c1 with
    | some fk => mapDelete c1 fk
    | none => c1
  else c1

/-- papers route file: `CACHE_TTL = 60000`. -/
def papersCacheTTL : Nat := 60000

/-- papers route file: eviction threshold `queryCache.size > 100`. -/
def papersCacheCap : Nat := 100

/-- interactions.js: `CACHE_TTL = 300000`. -/
def interactionsCacheTTL : Nat := 300000

/-- interactions.js: eviction threshold `queryCache.size > 200`. -/
def interactionsCacheCap : Nat := 200

/-- The substring probed by `invalidateUserCache`:
the template literal `\x22userId\x22:` followed by the decimal user id,
as probed by `key.includes`. -/
def userIdProbe (userId : Nat) : Str := "\"userId\":".data ++ numChars userId

def researcherIdProbe (userId : Nat) : Str :=
  "\"researcherId\":".data ++ numChars userId

/-- `invalidateUserCache(userId)` from interactions.js: collect every key
whose serialized form contains one of the two probe substrings, then delete
those keys. -/
def invalidateUserCache (userId : Nat) (c : Cache α) : Cache α :=
  c.filter (fun e =>
    !(jsIncludes e.1 (userIdProbe userId) || jsIncludes e.1 (researcherIdProbe userId)))

/-- Cache effect of the papers-route review/download write handlers
(`queryCache.delete(getCacheKey(paperId-object))`): the papers-file cache
loses exactly the single detail key; the interactions-file cache is a separate
module-level Map and is untouched by these routes. -/
def papersWriteCacheEffect (pid : String) (pc ic : Cache α) : Cache α × Cache α :=
  (mapDelete pc (getCacheKeyS [("paperId", .jstr pid.data)]), ic)

/-! ### Search ranking

Candidate records as the CTE of the search query computes them: paper columns,
the field row (nullable through the LEFT JOIN), keyword rows, author rows and
the aggregated counts/averages. -/

structure Paper where
  paperId : Nat
  title : Str
  abstract : Str
  fieldName : Option Str
  fieldDescription : Option Str
  keywords : List Str
  authors : List (Str × Str)
  downloadCount : Nat
  averageRating : ℚ
  reviewCount : Nat
  publicationDate : Nat
deriving DecidableEq

/-- The base WHERE clause of the search route: full trimmed query text as a
substring of title, abstract, field name, field description, a keyword row, or
an author first/last name. -/
def matchesSearch (q : Str) (p : Paper) : Bool :=
  let pat := trimChars q
  likeContains p.title pat || likeContains p.abstract pat ||
    optLike p.fieldName pat || optLike p.fieldDescription pat ||
    p.keywords.any (fun kw => likeContains kw pat) ||
    p.authors.any (fun a => likeContains a.1 pat || likeContains a.2 pat)

/-- `Relevance_Score` exactly as the route assembles `relevanceScoreParts`:
title phrase 1000, then 100 per term in title, keywords 500, abstract 200,
field name 150, author name 300, summed. -/
def relevanceScore (q : Str) (p : Paper) : Nat :=
  let pat := trimChars q
  (if likeContains p.title pat then 1000 else 0) +
    ((searchTermsOf q).map (fun t => if likeContains p.title t then 100 else 0)).sum +
    (if p.keywords.any (fun kw => likeContains kw pat) then 500 else 0) +
    (if likeContains p.abstract pat then 200 else 0) +
    (if optLike p.fieldName pat then 150 else 0) +
    (if p.authors.any (fun a => likeContains a.1 pat || likeContains a.2 pat)
      then 300 else 0)

/-- The relevance score as claim C7 words it: 1000 for the full query in the
title, plus 100 for each matching term, plus 500 keywords, plus 300 author,
plus 200 abstract, plus 150 field name. -/
def specRelevanceScore (q : Str) (p : Paper) : Nat :=
  let pat := trimChars q
  (if likeContains p.title pat then 1000 else 0) +
    100 * ((searchTermsOf q).filter (fun t => likeContains p.title t)).length +
    (if p.keywords.any (fun kw => likeContains kw pat) then 500 else 0) +
    (if p.authors.any (fun a => likeContains a.1 pat || likeContains a.2 pat)
      then 300 else 0) +
    (if likeContains p.abstract pat then 200 else 0) +
    (if optLike p.fieldName pat then 150 else 0)

/-- `sortBy` values; any unrecognized value falls into the `default` case,
which is the `relevance` chain. -/
inductive SortMode where
  | relevance | date | rating | downloads
deriving DecidableEq

/-- The ORDER BY key chain of `orderByClause`, most significant first; every
listed column is sorted DESC. -/
def sortKeys (m : SortMode) (q : Str) (p : Paper) : List ℚ :=
  match m with
  | .date => [(p.publicationDate : ℚ), (relevanceScore q p : ℚ)]
  | .rating => [p.averageRating, (relevanceScore q p : ℚ), (p.publicationDate : ℚ)]
  | .downloads =>
    [(p.downloadCount : ℚ), (relevanceScore q p : ℚ), (p.publicationDate : ℚ)]
  | .relevance =>
    [(relevanceScore q p : ℚ), p.averageRating, (p.downloadCount : ℚ),
      (p.publicationDate : ℚ)]

/-- Descending-lexicographic comparison of two equally long key chains:
`lexGE a b` holds when row `a` may come before row `b` under ORDER BY. -/
def lexGE : List ℚ → List ℚ → Bool
  | [], [] => true
  | [], _ :: _ => false
  | _ :: _, [] => false
  | a :: as, b :: bs => if b < a then true else if a = b then lexGE as bs else false

/-- SQL ORDER BY semantics: an output of the ranking is any permutation of the
candidate rows in which every row may come before each later one.  Rows tied
on the whole key chain are not ordered further. -/
def validOutput (m : SortMode) (q : Str) (cands out : List Paper) : Prop :=
  cands.Perm out ∧
    out.Pairwise (fun p1 p2 => lexGE (sortKeys m q p1) (sortKeys m q p2) = true)

/-- `p1` is strictly earlier than `p2` in every valid output: its key chain is
strictly greater in the descending-lexicographic order. -/
def sortsStrictlyBefore (m : SortMode) (q : Str) (p1 p2 : Paper) : Prop :=
  lexGE (sortKeys m q p1) (sortKeys m q p2) = true ∧
    lexGE (sortKeys m q p2) (sortKeys m q p1) = false

/-! ### The search route guards -/

inductive SearchOutcome where
  | invalidQuery
  | proceed (pattern : Str) (terms : List Str)
deriving DecidableEq

/-- GET /search/query guard: `if (!query || query.trim().length === 0)` return
a 400 response; otherwise proceed with `%query.trim()%` and the term list.
`.invalidQuery` stands for the unsuccessful 400 response. -/
def papersSearchRoute (q : Option Str) : SearchOutcome :=
  match q with
  | none => .invalidQuery
  | some s =>
    if s.isEmpty || (trimChars s).isEmpty then .invalidQuery
    else .proceed (trimChars s) (searchTermsOf s)

/-- POST /search guard in interactions.js:
`if (!query || typeof query !== 'string' || !query.trim())` return 400;
otherwise the trimmed query is recorded. -/
def interactionsSearchRoute (q : Option Str) : SearchOutcome :=
  match q with
  | none => .invalidQuery
  | some s =>
    if s.isEmpty || (trimChars s).isEmpty then .invalidQuery
    else .proceed (trimChars s) []

/-! ### Concrete data used by the claim scenarios -/

/-- Entry keyed by the parameters of the user-12 search-history route
(`JSON.stringify` of userId 12, page 1, limit 10, type searches). -/
def user12Key : Str :=
  getCacheKeyS [("userId", .jnum 12), ("page", .jnum 1), ("limit", .jnum 10),
    ("type", .jstr ("searches".data))]

def user12Cache : Cache String := [(user12Key, ⟨0, "user 12 history"⟩)]

def paper7DetailKey : Str := getCacheKeyS [("paperId", .jstr ("7".data))]

/-- Key of the paper-7 reviews page cached by interactions.js. -/
def paper7ReviewsKey : Str :=
  getCacheKeyS [("paperId", .jstr ("7".data)), ("page", .jnum 1),
    ("limit", .jnum 10), ("sortBy", .jstr ("date".data)),
    ("type", .jstr ("paperReviews".data))]

def paper7PapersCache : Cache String := [(paper7DetailKey, ⟨0, "paper 7 detail"⟩)]

def paper7InteractionsCache : Cache String :=
  [(paper7ReviewsKey, ⟨0, "paper 7 reviews page"⟩)]

/-- Two candidate papers identical on every ranking attribute, differing only
in their record id. -/
def tiePaperA : Paper :=
  ⟨1, "alpha".data, [], none, none, [], [], 0, 0, 0, 0⟩

def tiePaperB : Paper :=
  ⟨2, "alpha".data, [], none, none, [], [], 0, 0, 0, 0⟩

/-- The paper titled exactly "Neural Networks", all other fields empty. -/
def titlePaper : Paper :=
  ⟨1, "Neural Networks".data, [], none, none, [], [], 0, 0, 0, 0⟩

/-- A paper where the query text appears only in the abstract. -/
def abstractPaper : Paper :=
  ⟨2, [], "A study of neural networks.".data, none, none, [], [], 0, 0, 0, 0⟩

/-! ## Lemmas about the cache map operations -/

theorem mapGet_nil {α : Type} {k : Str} : mapGet ([] : Cache α) k = none := rfl

theorem mapGet_cons {α : Type} {p : Str × CacheEntry α} {c : Cache α} {k : Str} :
    mapGet (p :: c) k = if p.1 = k then some p.2 else mapGet c k := rfl

theorem mapDelete_nil {α : Type} {k : Str} : mapDelete ([] : Cache α) k = [] := rfl

theorem mapDelete_cons {α : Type} {p : Str × CacheEntry α} {c : Cache α} {k : Str} :
    mapDelete (p :: c) k = if p.1 = k then mapDelete c k else p :: mapDelete c k := rfl

theorem mapSet_nil {α : Type} {k : Str} {e : CacheEntry α} :
    mapSet ([] : Cache α) k e = [(k, e)] := rfl

theorem mapSet_cons {α : Type} {p : Str × CacheEntry α} {c : Cache α} {k : Str}
    {e : CacheEntry α} :
    mapSet (p :: c) k e = if p.1 = k then (k, e) :: c else p :: mapSet c k e := rfl

theorem mapGet_eq_none_iff {α : Type} {c : Cache α} {k : Str} :
    mapGet c k = none ↔ ∀ e ∈ c, e.1 ≠ k := by
  induction c with
  | nil =>
    rw [mapGet_nil]
    exact ⟨fun _ e he => absurd he (List.not_mem_nil e), fun _ => rfl⟩
  | cons p c ih =>
    rw [mapGet_cons]
    by_cases h : p.1 = k
    · rw [if_pos h]
      constructor
      · intro hc
        exact absurd hc (Option.some_ne_none _)
      · intro hall
        exact absurd h (hall p (List.mem_cons_self p c))
    · rw [if_neg h]
      constructor
      · intro hc e he
        rcases List.mem_cons.mp he with rfl | he2
        · exact h
        · exact ih.mp hc e he2
      · intro hall
        exact ih.mpr fun e he => hall e (List.mem_cons_of_mem p he)

theorem mapDelete_of_get_none {α : Type} {c : Cache α} {k : Str}
    (h : mapGet c k = none) : mapDelete c k = c := by
  induction c with
  | nil => rfl
  | cons p c ih =>
    rw [mapGet_eq_none_iff] at h
    have hp : p.1 ≠ k := h p (List.mem_cons_self p c)
    rw [mapDelete_cons, if_neg hp,
      ih (mapGet_eq_none_iff.mpr fun e he => h e (List.mem_cons_of_mem p he))]

theorem mapGet_mapDelete_ne {α : Type} {c : Cache α} {k k2 : Str}
    (h : k2 ≠ k) : mapGet (mapDelete c k) k2 = mapGet c k2 := by
  induction c with
  | nil => rfl
  | cons p c ih =>
    by_cases hp : p.1 = k
    · have hp2 : p.1 ≠ k2 := by rw [hp]; exact Ne.symm h
      rw [mapDelete_cons, if_pos hp, mapGet_cons, if_neg hp2, ih]
    · by_cases hp2 : p.1 = k2
      · rw [mapDelete_cons, if_neg hp, mapGet_cons, if_pos hp2, mapGet_cons, if_pos hp2]
      · rw [mapDelete_cons, if_neg hp, mapGet_cons, if_neg hp2, mapGet_cons, if_neg hp2, ih]

theorem mapGet_mapSet_self {α : Type} (c : Cache α) (k : Str) (e : CacheEntry α) :
    mapGet (mapSet c k e) k = some e := by
  induction c with
  | nil => rw [mapSet_nil, mapGet_cons, if_pos rfl]
  | cons p c ih =>
    by_cases hp : p.1 = k
    · rw [mapSet_cons, if_pos hp, mapGet_cons, if_pos rfl]
    · rw [mapSet_cons, if_neg hp, mapGet_cons, if_neg hp, ih]

theorem getCachedQuery_of_get_none {α : Type} {ttl now : Nat} {c : Cache α} {k : Str}
    (h : mapGet c k = none) : getCachedQuery ttl now c k = (none, mapDelete c k) := by
  unfold getCachedQuery
  rw [h]

theorem getCachedQuery_of_get_some {α : Type} {ttl now : Nat} {c : Cache α} {k : Str}
    {e : CacheEntry α} (h : mapGet c k = some e) :
    getCachedQuery ttl now c k =
      if now - e.timestamp < ttl then (some e.data, c) else (none, mapDelete c k) := by
  unfold getCachedQuery
  rw [h]

theorem setCachedQuery_no_evict {α : Type} {cap now : Nat} {c : Cache α} {k : Str}
    {v : α} (h : (mapSet c k ⟨now, v⟩).length ≤ cap) :
    setCachedQuery cap now c k v = mapSet c k ⟨now, v⟩ := by
  show (if (mapSet c k ⟨now, v⟩).length > cap then
      match cacheFirstKey (mapSet c k ⟨now, v⟩) with
      | some fk => mapDelete (mapSet c k ⟨now, v⟩) fk
      | none => mapSet c k ⟨now, v⟩
    else mapSet c k ⟨now, v⟩) = mapSet c k ⟨now, v⟩
  rw [if_neg (by omega)]

theorem mapSet_of_get_none {α : Type} {c : Cache α} {k : Str} {e : CacheEntry α}
    (h : mapGet c k = none) : mapSet c k e = c ++ [(k, e)] := by
  induction c with
  | nil => rfl
  | cons p c ih =>
    rw [mapGet_eq_none_iff] at h
    have hp : p.1 ≠ k := h p (List.mem_cons_self p c)
    rw [mapSet_cons, if_neg hp, List.cons_append,
      ih (mapGet_eq_none_iff.mpr fun e2 he => h e2 (List.mem_cons_of_mem p he))]

theorem mapGet_map_keys_of_mem {α : Type} (f : Str → CacheEntry α) :
    ∀ (ks : List Str) (k : Str), k ∈ ks →
      mapGet (ks.map fun k2 => (k2, f k2)) k = some (f k) := by
  intro ks
  induction ks with
  | nil => intro k hk; exact absurd hk (List.not_mem_nil k)
  | cons k2 ks ih =>
    intro k hk
    rw [List.map_cons, mapGet_cons]
    by_cases h : k2 = k
    · subst h
      rw [if_pos rfl]
    · rw [if_neg h]
      rcases List.mem_cons.mp hk with rfl | h2
      · exact absurd rfl h
      · exact ih k h2

theorem mapGet_map_keys_of_not_mem {α : Type} (f : Str → CacheEntry α)
    (ks : List Str) (k : Str) (h : k ∉ ks) :
    mapGet (ks.map fun k2 => (k2, f k2)) k = none := by
  rw [mapGet_eq_none_iff]
  intro e he
  obtain ⟨k2, hk2, rfl⟩ := List.mem_map.mp he
  exact fun hh => h (hh ▸ hk2)

theorem mapDelete_entries_head {α : Type} (f : Str → CacheEntry α) (hd : Str)
    (tl : List Str) (h : hd ∉ tl) :
    mapDelete ((hd :: tl).map fun k2 => (k2, f k2)) hd = tl.map fun k2 => (k2, f k2) := by
  rw [List.map_cons, mapDelete_cons, if_pos rfl]
  exact mapDelete_of_get_none (mapGet_map_keys_of_not_mem f tl hd h)

/-- Filling an under-capacity cache with fresh keys appends their entries in
insertion order, with no eviction. -/
theorem foldl_setCachedQuery_fill {α : Type} (cap : Nat) (tf : Str → Nat)
    (vf : Str → α) :
    ∀ (ks : List Str) (c : Cache α), (∀ k ∈ ks, mapGet c k = none) → ks.Nodup →
      c.length + ks.length ≤ cap →
      ks.foldl (fun acc k => setCachedQuery cap (tf k) acc k (vf k)) c =
        c ++ ks.map (fun k => (k, ⟨tf k, vf k⟩)) := by
  intro ks
  induction ks with
  | nil => intro c _ _ _; rw [List.foldl_nil, List.map_nil, List.append_nil]
  | cons k ks ih =>
    intro c hfresh hnd hlen
    rw [List.length_cons] at hlen
    obtain ⟨hknotin, hndtl⟩ := List.nodup_cons.mp hnd
    have hm : mapSet c k ⟨tf k, vf k⟩ = c ++ [(k, (⟨tf k, vf k⟩ : CacheEntry α))] :=
      mapSet_of_get_none (hfresh k (List.mem_cons_self k ks))
    have hl : (mapSet c k ⟨tf k, vf k⟩).length ≤ cap := by
      rw [hm, List.length_append, List.length_cons, List.length_nil]
      omega
    have hset : setCachedQuery cap (tf k) c k (vf k) =
        c ++ [(k, (⟨tf k, vf k⟩ : CacheEntry α))] := by
      rw [setCachedQuery_no_evict hl, hm]
    have hfresh2 : ∀ k2 ∈ ks,
        mapGet (c ++ [(k, (⟨tf k, vf k⟩ : CacheEntry α))]) k2 = none := by
      intro k2 hk2
      rw [mapGet_eq_none_iff]
      intro e2 he2
      rcases List.mem_append.mp he2 with hin | hin
      · exact mapGet_eq_none_iff.mp (hfresh k2 (List.mem_cons_of_mem k hk2)) e2 hin
      · rcases List.mem_singleton.mp hin with rfl
        exact fun hh => hknotin ((show k = k2 from hh) ▸ hk2)
    have hlen2 : (c ++ [(k, (⟨tf k, vf k⟩ : CacheEntry α))]).length + ks.length ≤ cap := by
      rw [List.length_append, List.length_cons, List.length_nil]
      omega
    rw [List.foldl_cons, hset,
      ih (c ++ [(k, (⟨tf k, vf k⟩ : CacheEntry α))]) hfresh2 hndtl hlen2,
      List.append_assoc, List.singleton_append, List.map_cons]

/-- Inserting a fresh key into a cache already at capacity appends the entry
and then deletes the first (oldest-inserted) key. -/
theorem setCachedQuery_evict_cons {α : Type} {cap now : Nat}
    {p : Str × CacheEntry α} {c2 : Cache α} {k : Str} {v : α}
    (hfresh : mapGet (p :: c2) k = none) (hlen : (p :: c2).length + 1 > cap) :
    setCachedQuery cap now (p :: c2) k v =
      mapDelete ((p :: c2) ++ [(k, ⟨now, v⟩)]) p.1 := by
  have hm : mapSet (p :: c2) k ⟨now, v⟩ = (p :: c2) ++ [(k, (⟨now, v⟩ : CacheEntry α))] :=
    mapSet_of_get_none hfresh
  show (if (mapSet (p :: c2) k ⟨now, v⟩).length > cap then
      match cacheFirstKey (mapSet (p :: c2) k ⟨now, v⟩) with
      | some fk => mapDelete (mapSet (p :: c2) k ⟨now, v⟩) fk
      | none => mapSet (p :: c2) k ⟨now, v⟩
    else mapSet (p :: c2) k ⟨now, v⟩) = _
  rw [hm]
  have hgt : ((p :: c2) ++ [(k, (⟨now, v⟩ : CacheEntry α))]).length > cap := by
    simp only [List.length_append, List.length_cons, List.length_nil] at hlen ⊢
    omega
  rw [if_pos hgt]
  have hfk : cacheFirstKey ((p :: c2) ++ [(k, (⟨now, v⟩ : CacheEntry α))]) = some p.1 := rfl
  rw [hfk]

/-! ## C7: the relevance score as a sum of weighted signals -/

theorem sum_map_ite_hundred (P : Str → Bool) (l : List Str) :
    (l.map (fun t => if P t then 100 else 0)).sum = 100 * (l.filter P).length := by
  induction l with
  | nil => rfl
  | cons t l ih =>
    rw [List.map_cons, List.sum_cons, List.filter_cons, ih]
    by_cases h : P t
    · rw [if_pos h, if_pos h, List.length_cons]
      ring
    · rw [if_neg h, if_neg (by simpa using h)]
      omega

/-- C7: the relevance score is the sum of independent all-or-nothing
weighted signals (1000 full query in title, 100 per term in title, 500
keywords, 300 author, 200 abstract, 150 field); for query "neural networks"
the paper titled exactly "Neural Networks" scores 1000+100+100 = 1200 and
sorts strictly above the paper whose abstract alone contains the query
(score 200), and that abstract-only paper still matches the search. -/
theorem C7_relevance_score_signals :
    (∀ (q : Str) (p : Paper), relevanceScore q p = specRelevanceScore q p) ∧
      relevanceScore ("neural networks".data) titlePaper = 1200 ∧
      relevanceScore ("neural networks".data) abstractPaper = 200 ∧
      matchesSearch ("neural networks".data) abstractPaper = true ∧
      sortsStrictlyBefore .relevance ("neural networks".data) titlePaper abstractPaper := by
  refine ⟨?_, by decide, by decide, by decide, by constructor <;> decide⟩
  intro q p
  unfold relevanceScore specRelevanceScore
  rw [sum_map_ite_hundred]
  ring

/-! ## C10: empty or whitespace-only query text is rejected -/

/-- C10: both search routes signal the invalid-query error (the unsuccessful
400 response, `.invalidQuery`) exactly when the query text is missing, empty
or whitespace-only after trimming; for any query non-empty after trimming the
error branch is not taken. -/
theorem C10_empty_query_rejected :
    ∀ q : Option Str,
      (papersSearchRoute q = .invalidQuery ↔ trimChars (q.getD []) = []) ∧
      (interactionsSearchRoute q = .invalidQuery ↔ trimChars (q.getD []) = []) := by
  have key : ∀ s : Str, (s.isEmpty || (trimChars s).isEmpty) = true ↔ trimChars s = [] := by
    intro s
    rw [Bool.or_eq_true, List.isEmpty_iff, List.isEmpty_iff]
    constructor
    · rintro (rfl | h)
      · rfl
      · exact h
    · exact fun h => Or.inr h
  intro q
  cases q with
  | none => exact ⟨⟨fun _ => rfl, fun _ => rfl⟩, ⟨fun _ => rfl, fun _ => rfl⟩⟩
  | some s =>
    constructor
    · show (if s.isEmpty || (trimChars s).isEmpty then SearchOutcome.invalidQuery
          else .proceed (trimChars s) (searchTermsOf s)) = .invalidQuery ↔
          trimChars s = []
      by_cases h : (s.isEmpty || (trimChars s).isEmpty) = true
      · rw [if_pos h]
        exact ⟨fun _ => (key s).mp h, fun _ => rfl⟩
      · rw [if_neg h]
        exact ⟨fun hc => SearchOutcome.noConfusion hc,
          fun hh => absurd ((key s).mpr hh) h⟩
    · show (if s.isEmpty || (trimChars s).isEmpty then SearchOutcome.invalidQuery
          else .proceed (trimChars s) []) = .invalidQuery ↔ trimChars s = []
      by_cases h : (s.isEmpty || (trimChars s).isEmpty) = true
      · rw [if_pos h]
        exact ⟨fun _ => (key s).mp h, fun _ => rfl⟩
      · rw [if_neg h]
        exact ⟨fun hc => SearchOutcome.noConfusion hc,
          fun hh => absurd ((key s).mpr hh) h⟩

/-! ## Lemmas about the ORDER BY comparison -/

theorem lexGE_nil : lexGE [] [] = true := rfl

theorem lexGE_cons_iff {a b : ℚ} {as bs : List ℚ} :
    lexGE (a :: as) (b :: bs) = true ↔ (b < a ∨ (a = b ∧ lexGE as bs = true)) := by
  show (if b < a then true else if a = b then lexGE as bs else false) = true ↔ _
  by_cases h1 : b < a
  · rw [if_pos h1]
    exact ⟨fun _ => Or.inl h1, fun _ => rfl⟩
  · rw [if_neg h1]
    by_cases h2 : a = b
    · rw [if_pos h2]
      constructor
      · exact fun h => Or.inr ⟨h2, h⟩
      · rintro (h | ⟨_, h⟩)
        · exact absurd h h1
        · exact h
    · rw [if_neg h2]
      constructor
      · intro h
        exact absurd h (by decide)
      · rintro (h | ⟨h, _⟩)
        · exact absurd h h1
        · exact absurd h h2

theorem lexGE_refl : ∀ l : List ℚ, lexGE l l = true := by
  intro l
  induction l with
  | nil => rfl
  | cons a as ih => exact lexGE_cons_iff.mpr (Or.inr ⟨rfl, ih⟩)

theorem lexGE_antisymm : ∀ {l1 l2 : List ℚ},
    lexGE l1 l2 = true → lexGE l2 l1 = true → l1 = l2 := by
  intro l1
  induction l1 with
  | nil =>
    intro l2 h1 h2
    cases l2 with
    | nil => rfl
    | cons b bs =>
      rw [show lexGE [] (b :: bs) = false from rfl] at h1
      exact absurd h1 (by decide)
  | cons a as ih =>
    intro l2 h1 h2
    cases l2 with
    | nil =>
      rw [show lexGE (a :: as) [] = false from rfl] at h1
      exact absurd h1 (by decide)
    | cons b bs =>
      rcases lexGE_cons_iff.mp h1 with hba | ⟨hab, hrest1⟩
      · rcases lexGE_cons_iff.mp h2 with hab2 | ⟨hba2, _⟩
        · exact absurd hab2 (lt_asymm hba)
        · exact absurd hba (hba2 ▸ lt_irrefl b)
      · rcases lexGE_cons_iff.mp h2 with hab2 | ⟨_, hrest2⟩
        · exact absurd hab2 (hab ▸ lt_irrefl a)
        · rw [hab, ih hrest1 hrest2]

instance : IsAntisymm (List ℚ) (fun l1 l2 => lexGE l1 l2 = true) :=
  ⟨fun _ _ => lexGE_antisymm⟩

/-- Strict comparison characterization: `p1` strictly precedes `p2` exactly
when the key chains differ and the first differing key is larger on `p1`. -/
theorem lexStrict_cons_iff {a b : ℚ} {as bs : List ℚ} :
    (lexGE (a :: as) (b :: bs) = true ∧ lexGE (b :: bs) (a :: as) = false) ↔
      (b < a ∨ (a = b ∧ (lexGE as bs = true ∧ lexGE bs as = false))) := by
  have hfalse : ∀ x y : List ℚ, (lexGE x y = false) ↔ ¬(lexGE x y = true) := by
    intro x y
    cases h : lexGE x y <;> simp [h]
  constructor
  · rintro ⟨h1, h2⟩
    rw [hfalse] at h2
    rcases lexGE_cons_iff.mp h1 with hba | ⟨hab, hrest⟩
    · exact Or.inl hba
    · refine Or.inr ⟨hab, hrest, ?_⟩
      rw [hfalse]
      intro hc
      exact h2 (lexGE_cons_iff.mpr (Or.inr ⟨hab.symm, hc⟩))
  · rintro (hba | ⟨hab, hge, hlt⟩)
    · refine ⟨lexGE_cons_iff.mpr (Or.inl hba), ?_⟩
      rw [hfalse]
      intro hc
      rcases lexGE_cons_iff.mp hc with hab2 | ⟨hba2, _⟩
      · exact absurd hab2 (lt_asymm hba)
      · exact absurd hba (hba2 ▸ lt_irrefl b)
    · refine ⟨lexGE_cons_iff.mpr (Or.inr ⟨hab, hge⟩), ?_⟩
      rw [hfalse]
      intro hc
      rcases lexGE_cons_iff.mp hc with hab2 | ⟨_, hrest2⟩
      · exact absurd hab2 (hab ▸ lt_irrefl a)
      · rw [hfalse] at hlt
        exact hlt hrest2

theorem lexStrict_nil :
    ¬(lexGE ([] : List ℚ) [] = true ∧ lexGE ([] : List ℚ) [] = false) := by
  decide

/-- A strict key-chain comparison really is a strict ordering constraint on
outputs: no valid output contains the two rows in the swapped order. -/
theorem sortsStrictlyBefore_excludes_swapped {m : SortMode} {q : Str}
    {p1 p2 : Paper} {cands out : List Paper}
    (hout : validOutput m q cands out)
    (hstrict : sortsStrictlyBefore m q p1 p2) : ¬ [p2, p1].Sublist out := by
  intro hsub
  have hp : List.Pairwise
      (fun a b => lexGE (sortKeys m q a) (sortKeys m q b) = true) [p2, p1] :=
    hout.2.sublist hsub
  have h21 := List.pairwise_pair.mp hp
  rw [hstrict.2] at h21
  exact absurd h21 (by decide)

/-! ## C6: determinism of the ranking

The claim is wrong on the code: `orderByClause` ends with the listed DESC
columns and no record-id (or any other unique) tie-break, so two candidate
rows that agree on every listed key may legally be returned in either order
by the database — the ordered output is not fully determined. -/

/-- C6 counterexample: two distinct papers (different ids) tied on every key
of the relevance chain; both orders of the two-element candidate set are
valid ranking outputs, and they differ. -/
theorem C6_counterexample_tie_two_orders :
    validOutput .relevance ("alpha".data) [tiePaperA, tiePaperB]
        [tiePaperA, tiePaperB] ∧
      validOutput .relevance ("alpha".data) [tiePaperA, tiePaperB]
        [tiePaperB, tiePaperA] ∧
      ([tiePaperA, tiePaperB] : List Paper) ≠ [tiePaperB, tiePaperA] := by
  refine ⟨⟨List.Perm.refl _, ?_⟩, ⟨List.Perm.swap tiePaperB tiePaperA [], ?_⟩, by decide⟩
  · exact List.pairwise_pair.mpr (by decide)
  · exact List.pairwise_pair.mpr (by decide)

/-- C6 amended: the ranking is deterministic only up to the order of records
tied on the listed keys of the sortMode — any two valid outputs over identical
query and candidate set agree on the whole sequence of sort keys (hence on
every key-distinguishable position), but no secondary record-id tie-break
exists. -/
theorem C6_rank_deterministic_up_to_ties :
    ∀ (m : SortMode) (q : Str) (cands out1 out2 : List Paper),
      validOutput m q cands out1 → validOutput m q cands out2 →
      (out1.map (sortKeys m q)).Perm (out2.map (sortKeys m q)) ∧
        out1.map (sortKeys m q) = out2.map (sortKeys m q) := by
  intro m q cands out1 out2 h1 h2
  have hperm : out1.Perm out2 := h1.1.symm.trans h2.1
  have hpermk : (out1.map (sortKeys m q)).Perm (out2.map (sortKeys m q)) :=
    hperm.map (sortKeys m q)
  refine ⟨hpermk, ?_⟩
  have hs1 : (out1.map (sortKeys m q)).Sorted (fun l1 l2 => lexGE l1 l2 = true) :=
    List.pairwise_map.mpr h1.2
  have hs2 : (out2.map (sortKeys m q)).Sorted (fun l1 l2 => lexGE l1 l2 = true) :=
    List.pairwise_map.mpr h2.2
  exact List.eq_of_perm_of_sorted hpermk hs1 hs2

/-- Witness for the amended statement of C6 at a concrete input. -/
theorem C6_rank_deterministic_up_to_ties_witness :
    validOutput .relevance ("alpha".data) [tiePaperA] [tiePaperA] ∧
      ([tiePaperA].map (sortKeys .relevance ("alpha".data))).Perm
        ([tiePaperA].map (sortKeys .relevance ("alpha".data))) :=
  ⟨⟨List.Perm.refl _, List.pairwise_singleton _ _⟩,
    (C6_rank_deterministic_up_to_ties .relevance ("alpha".data) [tiePaperA]
      [tiePaperA] [tiePaperA]
      ⟨List.Perm.refl _, List.pairwise_singleton _ _⟩
      ⟨List.Perm.refl _, List.pairwise_singleton _ _⟩).1⟩

/-! ## C8: the ORDER BY key chains per sortMode -/

/-- C8: for every sortMode the result order is by exactly the listed key
chain (each DESC): relevance — score, rating, downloads, date; date — date,
score; rating — rating, score, date; downloads — downloads, score, date.
In particular under `downloads` a paper with 50 downloads sorts strictly
before one with 10 downloads regardless of their relevance scores. -/
theorem C8_order_by_chains :
    ∀ (q : Str) (p1 p2 : Paper),
      (sortsStrictlyBefore .relevance q p1 p2 ↔
        (relevanceScore q p2 < relevanceScore q p1 ∨
          (relevanceScore q p1 = relevanceScore q p2 ∧
            (p2.averageRating < p1.averageRating ∨
              (p1.averageRating = p2.averageRating ∧
                (p2.downloadCount < p1.downloadCount ∨
                  (p1.downloadCount = p2.downloadCount ∧
                    p2.publicationDate < p1.publicationDate))))))) ∧
      (sortsStrictlyBefore .date q p1 p2 ↔
        (p2.publicationDate < p1.publicationDate ∨
          (p1.publicationDate = p2.publicationDate ∧
            relevanceScore q p2 < relevanceScore q p1))) ∧
      (sortsStrictlyBefore .rating q p1 p2 ↔
        (p2.averageRating < p1.averageRating ∨
          (p1.averageRating = p2.averageRating ∧
            (relevanceScore q p2 < relevanceScore q p1 ∨
              (relevanceScore q p1 = relevanceScore q p2 ∧
                p2.publicationDate < p1.publicationDate))))) ∧
      (sortsStrictlyBefore .downloads q p1 p2 ↔
        (p2.downloadCount < p1.downloadCount ∨
          (p1.downloadCount = p2.downloadCount ∧
            (relevanceScore q p2 < relevanceScore q p1 ∨
              (relevanceScore q p1 = relevanceScore q p2 ∧
                p2.publicationDate < p1.publicationDate))))) ∧
      (p1.downloadCount = 50 → p2.downloadCount = 10 →
        sortsStrictlyBefore .downloads q p1 p2) := by
  intro q p1 p2
  have hnil : ∀ x : List ℚ, x = [] →
      ((lexGE x [] = true ∧ lexGE x [] = false) ↔ False) := by
    rintro x rfl
    exact ⟨fun h => lexStrict_nil h, False.elim⟩
  refine ⟨?_, ?_, ?_, ?_, ?_⟩
  · show (lexGE [_, _, _, _] [_, _, _, _] = true ∧
        lexGE [_, _, _, _] [_, _, _, _] = false) ↔ _
    rw [lexStrict_cons_iff, lexStrict_cons_iff, lexStrict_cons_iff,
      lexStrict_cons_iff, hnil [] rfl]
    simp only [Nat.cast_lt, Nat.cast_inj, and_false, or_false]
  · show (lexGE [_, _] [_, _] = true ∧ lexGE [_, _] [_, _] = false) ↔ _
    rw [lexStrict_cons_iff, lexStrict_cons_iff, hnil [] rfl]
    simp only [Nat.cast_lt, Nat.cast_inj, and_false, or_false]
  · show (lexGE [_, _, _] [_, _, _] = true ∧ lexGE [_, _, _] [_, _, _] = false) ↔ _
    rw [lexStrict_cons_iff, lexStrict_cons_iff, lexStrict_cons_iff, hnil [] rfl]
    simp only [Nat.cast_lt, Nat.cast_inj, and_false, or_false]
  · show (lexGE [_, _, _] [_, _, _] = true ∧ lexGE [_, _, _] [_, _, _] = false) ↔ _
    rw [lexStrict_cons_iff, lexStrict_cons_iff, lexStrict_cons_iff, hnil [] rfl]
    simp only [Nat.cast_lt, Nat.cast_inj, and_false, or_false]
  · intro h1 h2
    show lexGE [_, _, _] [_, _, _] = true ∧ lexGE [_, _, _] [_, _, _] = false
    rw [lexStrict_cons_iff]
    exact Or.inl (by rw [h1, h2]; exact Nat.cast_lt.mpr (by omega))

/-- Witness for C8 at a concrete input: the 50-download paper sorts strictly
before the 10-download paper under `downloads`. -/
theorem C8_order_by_chains_witness :
    ((⟨1, [], [], none, none, [], [], 50, 0, 0, 0⟩ : Paper).downloadCount = 50 ∧
        (⟨2, "x".data, [], none, none, [], [], 10, 0, 0, 0⟩ : Paper).downloadCount = 10) ∧
      sortsStrictlyBefore .downloads []
        ⟨1, [], [], none, none, [], [], 50, 0, 0, 0⟩
        ⟨2, "x".data, [], none, none, [], [], 10, 0, 0, 0⟩ :=
  ⟨⟨rfl, rfl⟩,
    (C8_order_by_chains [] ⟨1, [], [], none, none, [], [], 50, 0, 0, 0⟩
      ⟨2, "x".data, [], none, none, [], [], 10, 0, 0, 0⟩).2.2.2.2 rfl rfl⟩

/-! ## C3: FIFO eviction at capacity + 1 -/

/-- C3: the two cache instances have capacities 100 (papers) and 200
(interactions); starting from an empty cache, inserting `cap + 1` distinct
keys within the TTL window makes exactly the first-inserted key unreachable
via get, while every one of the other `cap` keys remains reachable with its
stored value — eviction is by insertion order, not access recency. -/
theorem C3_fifo_eviction :
    papersCacheCap = 100 ∧ interactionsCacheCap = 200 ∧
    ∀ (α : Type) (cap ttl now : Nat) (tf : Str → Nat) (vf : Str → α)
      (hd : Str) (tl : List Str),
      1 ≤ cap → (hd :: tl).Nodup → (hd :: tl).length = cap + 1 →
      (∀ k ∈ tl, now - tf k < ttl) →
      (getCachedQuery ttl now
          ((hd :: tl).foldl (fun acc k => setCachedQuery cap (tf k) acc k (vf k)) [])
          hd).1 = none ∧
      ∀ k ∈ tl, (getCachedQuery ttl now
          ((hd :: tl).foldl (fun acc k => setCachedQuery cap (tf k) acc k (vf k)) [])
          k).1 = some (vf k) := by
  refine ⟨rfl, rfl, ?_⟩
  intro α cap ttl now tf vf hd tl hcap hnd hlen hfresh
  have hlt : tl.length = cap := by
    rw [List.length_cons] at hlen
    omega
  have htlne : tl ≠ [] := by
    intro h
    rw [h] at hlt
    simp only [List.length_nil] at hlt
    omega
  obtain ⟨hhdnotin, hndtl⟩ := List.nodup_cons.mp hnd
  obtain ⟨init, last, hsplit⟩ : ∃ init last, tl = init ++ [last] :=
    ⟨tl.dropLast, tl.getLast htlne, (List.dropLast_append_getLast htlne).symm⟩
  have hfold : (hd :: tl).foldl (fun acc k => setCachedQuery cap (tf k) acc k (vf k)) []
      = tl.map (fun k => (k, ⟨tf k, vf k⟩)) := by
    have hndfull : (hd :: (init ++ [last])).Nodup := hsplit ▸ hnd
    obtain ⟨hhd2, hndapp⟩ := List.nodup_cons.mp hndfull
    obtain ⟨hndinit, _, hdisj⟩ := List.nodup_append.mp hndapp
    have hlastnotin : last ∉ (hd :: init) := by
      intro hmem
      rcases List.mem_cons.mp hmem with heq | hmem2
      · exact hhd2 (heq ▸ List.mem_append_right init (List.mem_singleton.mpr rfl))
      · exact hdisj hmem2 (List.mem_singleton.mpr rfl)
    have hsplit2 : hd :: tl = (hd :: init) ++ [last] := by
      rw [hsplit]
      rfl
    rw [hsplit2, List.foldl_append]
    have hfill : (hd :: init).foldl
        (fun acc k => setCachedQuery cap (tf k) acc k (vf k)) [] =
        (hd :: init).map (fun k => (k, ⟨tf k, vf k⟩)) := by
      have hlinit : init.length + 1 = cap := by
        rw [hsplit, List.length_append, List.length_cons, List.length_nil] at hlt
        omega
      have := foldl_setCachedQuery_fill cap tf vf (hd :: init) []
        (fun k _ => rfl)
        (List.nodup_cons.mpr ⟨fun hmem => hhd2 (List.mem_append_left _ hmem), hndinit⟩)
        (by rw [List.length_nil, List.length_cons]; omega)
      rw [this, List.nil_append]
    rw [hfill, List.foldl_cons, List.foldl_nil, List.map_cons]
    have hfreshlast : mapGet
        ((hd, (⟨tf hd, vf hd⟩ : CacheEntry α)) ::
          init.map (fun k => (k, ⟨tf k, vf k⟩))) last = none := by
      have := mapGet_map_keys_of_not_mem (fun k => (⟨tf k, vf k⟩ : CacheEntry α))
        (hd :: init) last hlastnotin
      rw [List.map_cons] at this
      exact this
    have hlencap : ((hd, (⟨tf hd, vf hd⟩ : CacheEntry α)) ::
        init.map (fun k => (k, ⟨tf k, vf k⟩))).length + 1 > cap := by
      rw [List.length_cons, List.length_map]
      rw [hsplit, List.length_append, List.length_cons, List.length_nil] at hlt
      omega
    rw [setCachedQuery_evict_cons hfreshlast hlencap]
    have hjoin : ((hd, (⟨tf hd, vf hd⟩ : CacheEntry α)) ::
        init.map (fun k => (k, ⟨tf k, vf k⟩))) ++ [(last, ⟨tf last, vf last⟩)] =
        (hd :: tl).map (fun k => (k, ⟨tf k, vf k⟩)) := by
      rw [hsplit, List.map_cons, List.map_append]
      rfl
    rw [hjoin]
    have hdel := mapDelete_entries_head (fun k => (⟨tf k, vf k⟩ : CacheEntry α))
      hd tl hhdnotin
    rw [List.map_cons] at hdel ⊢
    exact hdel
  constructor
  · rw [hfold, getCachedQuery_of_get_none
      (mapGet_map_keys_of_not_mem _ tl hd hhdnotin)]
  · intro k hk
    rw [hfold, getCachedQuery_of_get_some
      (mapGet_map_keys_of_mem (fun k2 => (⟨tf k2, vf k2⟩ : CacheEntry α)) tl k hk),
      if_pos (hfresh k hk)]

/-- Witness for C3 at a concrete input: capacity 2, three distinct keys. -/
theorem C3_fifo_eviction_witness :
    (1 ≤ 2 ∧ ([['a'], ['b'], ['c']] : List Str).Nodup ∧
        ([['a'], ['b'], ['c']] : List Str).length = 2 + 1 ∧
        (∀ k ∈ [['b'], ['c']], (0 : Nat) - 0 < 60000)) ∧
      (getCachedQuery 60000 0
        (([['a'], ['b'], ['c']] : List Str).foldl
          (fun acc k => setCachedQuery 2 0 acc k (String.mk k)) []) ['a']).1 = none ∧
      ∀ k ∈ ([['b'], ['c']] : List Str),
        (getCachedQuery 60000 0
          (([['a'], ['b'], ['c']] : List Str).foldl
            (fun acc k => setCachedQuery 2 0 acc k (String.mk k)) []) k).1 =
          some (String.mk k) := by
  refine ⟨⟨by decide, by decide, by decide, by decide⟩, ?_⟩
  exact C3_fifo_eviction.2.2 String 2 60000 0 (fun _ => 0) String.mk ['a'] [['b'], ['c']]
    (by decide) (by decide) (by decide) (by decide)

/-! ## C4: TTL behaviour of get after set -/

/-- C4: after `setCachedQuery(k, v)` with no eviction, `getCachedQuery(k)`
returns `v` at every instant strictly before `ttlMillis` has elapsed since
insertion, and returns absent (null) at every instant with
`now - storedAt ≥ ttlMillis`. -/
theorem C4_ttl_read_behavior :
    ∀ (α : Type) (ttl cap now rnow : Nat) (c : Cache α) (k : Str) (v : α),
      (mapSet c k ⟨now, v⟩).length ≤ cap → now ≤ rnow →
      ((rnow - now < ttl →
          (getCachedQuery ttl rnow (setCachedQuery cap now c k v) k).1 = some v) ∧
        (ttl ≤ rnow - now →
          (getCachedQuery ttl rnow (setCachedQuery cap now c k v) k).1 = none)) := by
  intro α ttl cap now rnow c k v hlen _
  have hset : setCachedQuery cap now c k v = mapSet c k ⟨now, v⟩ :=
    setCachedQuery_no_evict hlen
  have hget : mapGet (setCachedQuery cap now c k v) k = some ⟨now, v⟩ := by
    rw [hset]
    exact mapGet_mapSet_self c k ⟨now, v⟩
  constructor
  · intro hfresh
    rw [getCachedQuery_of_get_some hget, if_pos hfresh]
  · intro hstale
    rw [getCachedQuery_of_get_some hget, if_neg (Nat.not_lt.mpr hstale)]

/-- Witness for C4 at a concrete input. -/
theorem C4_ttl_read_behavior_witness :
    (mapSet ([] : Cache String) ['k'] ⟨0, "v"⟩).length ≤ 100 ∧ (0 : Nat) ≤ 59999 ∧
      (getCachedQuery papersCacheTTL 59999
        (setCachedQuery papersCacheCap 0 ([] : Cache String) ['k'] ("v")) ['k']).1 = some ("v") ∧
      (getCachedQuery papersCacheTTL 60000
        (setCachedQuery papersCacheCap 0 ([] : Cache String) ['k'] ("v")) ['k']).1 = none :=
  ⟨by decide, by decide,
    (C4_ttl_read_behavior String papersCacheTTL papersCacheCap 0 59999 [] ['k'] ("v")
      (by decide) (by decide)).1 (by decide),
    (C4_ttl_read_behavior String papersCacheTTL papersCacheCap 0 60000 [] ['k'] ("v")
      (by decide) (by decide)).2 (by decide)⟩

/-! ## C5: side effects of get on a miss

The claim is wrong on the code: a miss on a present-but-expired entry
*deletes* that entry (`queryCache.delete(key)` runs on every non-fresh path),
so the cache state is not identical before and after the call.  A miss on an
absent key really has no effect. -/

/-- C5 counterexample: a cache holding one expired entry; `getCachedQuery`
misses and the state afterwards differs from the state before. -/
theorem C5_counterexample_expired_miss_mutates :
    (getCachedQuery papersCacheTTL 60000
        [(['k'], (⟨0, "v"⟩ : CacheEntry String))] ['k']).1 = none ∧
      (getCachedQuery papersCacheTTL 60000
          [(['k'], (⟨0, "v"⟩ : CacheEntry String))] ['k']).2 ≠
        [(['k'], (⟨0, "v"⟩ : CacheEntry String))] := by
  constructor
  · decide
  · decide

/-- C5 amended: a miss on a key that is absent leaves the state unchanged;
a miss on an expired entry returns absent and deletes exactly that entry,
leaving the entries of all other keys untouched. -/
theorem C5_miss_effects :
    ∀ (α : Type) (ttl now : Nat) (c : Cache α) (k : Str),
      (mapGet c k = none → getCachedQuery ttl now c k = (none, c)) ∧
      (∀ e : CacheEntry α, mapGet c k = some e → ttl ≤ now - e.timestamp →
        (getCachedQuery ttl now c k).1 = none ∧
        (getCachedQuery ttl now c k).2 = mapDelete c k ∧
        ∀ k2, k2 ≠ k → mapGet (mapDelete c k) k2 = mapGet c k2) := by
  intro α ttl now c k
  constructor
  · intro h
    rw [getCachedQuery_of_get_none h, mapDelete_of_get_none h]
  · intro e h hstale
    refine ⟨?_, ?_, fun k2 hk2 => mapGet_mapDelete_ne hk2⟩
    · rw [getCachedQuery_of_get_some h, if_neg (Nat.not_lt.mpr hstale)]
    · rw [getCachedQuery_of_get_some h, if_neg (Nat.not_lt.mpr hstale)]

/-- Witness for the amended statement of C5 at concrete inputs. -/
theorem C5_miss_effects_witness :
    mapGet ([] : Cache String) ['k'] = none ∧
      getCachedQuery papersCacheTTL 5 ([] : Cache String) ['k'] = (none, []) ∧
      mapGet [(['k'], (⟨0, "v"⟩ : CacheEntry String))] ['k'] = some ⟨0, "v"⟩ ∧
      papersCacheTTL ≤ 60000 - 0 ∧
      (getCachedQuery papersCacheTTL 60000
        [(['k'], (⟨0, "v"⟩ : CacheEntry String))] ['k']).1 = none :=
  ⟨by decide,
    (C5_miss_effects String papersCacheTTL 5 [] ['k']).1 (by decide),
    by decide, by decide,
    ((C5_miss_effects String papersCacheTTL 60000
      [(['k'], ⟨0, "v"⟩)] ['k']).2 ⟨0, "v"⟩ (by decide) (by decide)).1⟩

/-! ## C1: invalidateUserCache has substring false positives

The claim is right about what the code must do and the code does not do it:
the probed substring (`\x22userId\x22:` plus the decimal id) also matches every user id whose decimal
representation extends the given one, so invalidating user 1 deletes user
the entries of user 12. -/

/-- C1: evaluating the code at the failing input.  The cache holds exactly
one entry, belonging to user 12; `invalidateUserCache(1)` deletes it, because
the probe substring `"userId":1` occurs inside `"userId":12` — even though no
entry of user 1 is stored. -/
theorem C1_invalidate_false_positive :
    invalidateUserCache 1 user12Cache = ([] : Cache String) ∧
      jsIncludes user12Key (userIdProbe 1) = true ∧
      invalidateUserCache 12 user12Cache = ([] : Cache String) := by
  refine ⟨by decide, by decide, by decide⟩

/-! ## C9: the papers-route writes invalidate only the exact detail key

The claim is right about the intended invalidation and the code does not do
it: the review/download POST handlers in the papers route file run only
`queryCache.delete(getCacheKey(paperId-object))` on their own module cache;
the interactions-file cache (a separate module-level Map holding e.g. the
cached reviews pages of the paper) is never touched, so entries tagged with the
same paper survive the write. -/

/-- C9: evaluating the code at the failing input.  After a review write for
paper 7, the papers-file cache loses the exact detail key, but the
interactions-file cache still holds — and still serves — the paper-7 reviews
page stored before the write. -/
theorem C9_paper_write_leaves_stale_tagged_entry :
    (papersWriteCacheEffect ("7") paper7PapersCache paper7InteractionsCache).1 = [] ∧
      (papersWriteCacheEffect ("7") paper7PapersCache paper7InteractionsCache).2 =
        paper7InteractionsCache ∧
      (getCachedQuery interactionsCacheTTL 0
          (papersWriteCacheEffect ("7") paper7PapersCache paper7InteractionsCache).2
          paper7ReviewsKey).1 = some ("paper 7 reviews page") := by
  refine ⟨by decide, by decide, by decide⟩

/-! ## C2: canonical keys depend on property insertion order

The claim is wrong on the code: `getCacheKey` is `JSON.stringify`, which
serializes properties in insertion order, so two value-equal parameter sets
built in different property orders get different keys.  What does hold is
that the key determines — and is determined by — the ordered property list:
`getCacheKey` is injective on ordered parameter lists. -/

theorem escChar_special {c : Char} (h : c = '"' ∨ c = '\\') :
    escChar c = ['\\', c] := by
  unfold escChar
  rw [if_pos h]

theorem escChar_plain {c : Char} (h : ¬(c = '"' ∨ c = '\\')) :
    escChar c = [c] := by
  unfold escChar
  rw [if_neg h]

/-- A JSON string literal body followed by its closing quote is unambiguous:
the first unescaped quote ends the literal. -/
theorem escape_append_quote_inj :
    ∀ (s1 s2 r1 r2 : Str),
      escapeChars s1 ++ '"' :: r1 = escapeChars s2 ++ '"' :: r2 →
      s1 = s2 ∧ r1 = r2 := by
  intro s1
  induction s1 with
  | nil =>
    intro s2 r1 r2 h
    cases s2 with
    | nil =>
      rw [show escapeChars [] = [] from rfl, List.nil_append, List.nil_append] at h
      rw [List.cons.injEq] at h
      exact ⟨rfl, h.2⟩
    | cons d ds =>
      exfalso
      rw [show escapeChars ([] : Str) = [] from rfl, List.nil_append,
        show escapeChars (d :: ds) = escChar d ++ escapeChars ds from rfl] at h
      by_cases hd : d = '"' ∨ d = '\\'
      · rw [escChar_special hd] at h
        simp only [List.cons_append, List.nil_append, List.append_assoc,
          List.cons.injEq] at h
        exact absurd h.1 (by decide)
      · rw [escChar_plain hd] at h
        simp only [List.cons_append, List.nil_append, List.append_assoc,
          List.cons.injEq] at h
        exact hd (Or.inl h.1.symm)
  | cons c cs ih =>
    intro s2 r1 r2 h
    cases s2 with
    | nil =>
      exfalso
      rw [show escapeChars ([] : Str) = [] from rfl, List.nil_append,
        show escapeChars (c :: cs) = escChar c ++ escapeChars cs from rfl] at h
      by_cases hc : c = '"' ∨ c = '\\'
      · rw [escChar_special hc] at h
        simp only [List.cons_append, List.nil_append, List.append_assoc,
          List.cons.injEq] at h
        exact absurd h.1 (by decide)
      · rw [escChar_plain hc] at h
        simp only [List.cons_append, List.nil_append, List.append_assoc,
          List.cons.injEq] at h
        exact hc (Or.inl h.1)
    | cons d ds =>
      rw [show escapeChars (c :: cs) = escChar c ++ escapeChars cs from rfl,
        show escapeChars (d :: ds) = escChar d ++ escapeChars ds from rfl] at h
      by_cases hc : c = '"' ∨ c = '\\' <;> by_cases hd : d = '"' ∨ d = '\\'
      · rw [escChar_special hc, escChar_special hd] at h
        simp only [List.cons_append, List.nil_append, List.append_assoc,
          List.cons.injEq] at h
        obtain ⟨-, hcd, htail⟩ := h
        obtain ⟨hs, hr⟩ := ih ds r1 r2 htail
        exact ⟨by rw [hcd, hs], hr⟩
      · rw [escChar_special hc, escChar_plain hd] at h
        simp only [List.cons_append, List.nil_append, List.append_assoc,
          List.cons.injEq] at h
        exact absurd h.1.symm (fun hh => hd (Or.inr hh))
      · rw [escChar_plain hc, escChar_special hd] at h
        simp only [List.cons_append, List.nil_append, List.append_assoc,
          List.cons.injEq] at h
        exact absurd h.1 (fun hh => hc (Or.inr hh))
      · rw [escChar_plain hc, escChar_plain hd] at h
        simp only [List.cons_append, List.nil_append, List.append_assoc,
          List.cons.injEq] at h
        obtain ⟨hcd, htail⟩ := h
        obtain ⟨hs, hr⟩ := ih ds r1 r2 htail
        exact ⟨by rw [hcd, hs], hr⟩

/-- A quoted JSON string literal followed by arbitrary text is unambiguous. -/
theorem quoteChars_append_inj {s1 s2 r1 r2 : Str}
    (h : quoteChars s1 ++ r1 = quoteChars s2 ++ r2) : s1 = s2 ∧ r1 = r2 := by
  unfold quoteChars at h
  simp only [List.cons_append, List.append_assoc, List.singleton_append,
    List.cons.injEq] at h
  exact escape_append_quote_inj s1 s2 r1 r2 h.2

/-- Value of a digit string (inverse of the decimal printer). -/
def digitsVal (l : Str) : Nat := l.foldl (fun a c => a * 10 + (c.toNat - 48)) 0

theorem digitChar_isDigit : ∀ n, n < 10 → (digitChar n).isDigit = true := by decide

theorem digitChar_toNat : ∀ n, n < 10 → (digitChar n).toNat = 48 + n := by decide

theorem digitsVal_append_one (l : Str) (d : Char) :
    digitsVal (l ++ [d]) = digitsVal l * 10 + (d.toNat - 48) := by
  unfold digitsVal
  rw [List.foldl_append]
  rfl

theorem numCharsAux_correct : ∀ fuel : Nat, ∀ n < fuel,
    (∀ c ∈ numCharsAux fuel n, c.isDigit = true) ∧ numCharsAux fuel n ≠ [] ∧
      digitsVal (numCharsAux fuel n) = n := by
  intro fuel
  induction fuel with
  | zero => intro n h; omega
  | succ fuel ih =>
    intro n hn
    by_cases h10 : n < 10
    · rw [show numCharsAux (fuel + 1) n = if n < 10 then [digitChar n]
        else numCharsAux fuel (n / 10) ++ [digitChar (n % 10)] from rfl, if_pos h10]
      refine ⟨?_, by simp, ?_⟩
      · intro c hc
        rcases List.mem_singleton.mp hc with rfl
        exact digitChar_isDigit n h10
      · show digitsVal ([] ++ [digitChar n]) = n
        rw [digitsVal_append_one, digitChar_toNat n h10]
        show 0 * 10 + (48 + n - 48) = n
        omega
    · have hdivlt : n / 10 < fuel := by
        have h2 : n / 10 < n := Nat.div_lt_self (by omega) (by omega)
        omega
      obtain ⟨hdig, hne, hval⟩ := ih (n / 10) hdivlt
      rw [show numCharsAux (fuel + 1) n = if n < 10 then [digitChar n]
        else numCharsAux fuel (n / 10) ++ [digitChar (n % 10)] from rfl, if_neg h10]
      refine ⟨?_, by simp, ?_⟩
      · intro c hc
        rcases List.mem_append.mp hc with hin | hin
        · exact hdig c hin
        · rcases List.mem_singleton.mp hin with rfl
          exact digitChar_isDigit (n % 10) (Nat.mod_lt n (by omega))
      · rw [digitsVal_append_one, hval, digitChar_toNat (n % 10) (Nat.mod_lt n (by omega))]
        have := Nat.div_add_mod n 10
        omega

theorem numChars_isDigit (n : Nat) : ∀ c ∈ numChars n, c.isDigit = true :=
  (numCharsAux_correct (n + 1) n (by omega)).1

theorem numChars_ne_nil (n : Nat) : numChars n ≠ [] :=
  (numCharsAux_correct (n + 1) n (by omega)).2.1

theorem numChars_inj {m n : Nat} (h : numChars m = numChars n) : m = n := by
  have hm := (numCharsAux_correct (m + 1) m (by omega)).2.2
  have hn := (numCharsAux_correct (n + 1) n (by omega)).2.2
  rw [show numChars m = numCharsAux (m + 1) m from rfl] at h
  rw [show numChars n = numCharsAux (n + 1) n from rfl] at h
  rw [← hm, ← hn, h]

/-- Maximal-munch for digit runs: two digit strings followed by non-digit
text split an equal concatenation identically. -/
theorem digits_munch :
    ∀ (a : Str), (∀ c ∈ a, c.isDigit = true) →
    ∀ (b : Str), (∀ c ∈ b, c.isDigit = true) →
    ∀ (r1 r2 : Str),
      (∀ c, r1.head? = some c → c.isDigit = false) →
      (∀ c, r2.head? = some c → c.isDigit = false) →
      a ++ r1 = b ++ r2 → a = b ∧ r1 = r2 := by
  intro a
  induction a with
  | nil =>
    intro _ b hb r1 r2 h1 _ h
    cases b with
    | nil => exact ⟨rfl, h⟩
    | cons d bs =>
      exfalso
      rw [List.nil_append, List.cons_append] at h
      have hd : d.isDigit = false := h1 d (by rw [h]; rfl)
      rw [hb d (List.mem_cons_self d bs)] at hd
      exact absurd hd (by decide)
  | cons c cs ih =>
    intro hc b hb r1 r2 h1 h2 h
    cases b with
    | nil =>
      exfalso
      rw [List.nil_append, List.cons_append] at h
      have hcd : c.isDigit = false := h2 c (by rw [← h]; rfl)
      rw [hc c (List.mem_cons_self c cs)] at hcd
      exact absurd hcd (by decide)
    | cons d bs =>
      rw [List.cons_append, List.cons_append, List.cons.injEq] at h
      obtain ⟨hcd, htail⟩ := h
      obtain ⟨hab, hr⟩ := ih (fun x hx => hc x (List.mem_cons_of_mem c hx)) bs
        (fun x hx => hb x (List.mem_cons_of_mem d hx)) r1 r2 h1 h2 htail
      exact ⟨by rw [hcd, hab], hr⟩

theorem delim_not_digit {c : Char} (h : c = ',' ∨ c = '\x7d') : c.isDigit = false := by
  rcases h with rfl | rfl <;> decide

theorem head_delim_brace : ∀ c : Char,
    (['\x7d'] : Str).head? = some c → c = ',' ∨ c = '\x7d' := by
  intro c hc
  exact Or.inr (Option.some.inj hc).symm

theorem head_delim_comma : ∀ (t : Str) (c : Char),
    (',' :: t).head? = some c → c = ',' ∨ c = '\x7d' := by
  intro t c hc
  exact Or.inl (Option.some.inj hc).symm

/-- A serialized JSON value followed by a delimiter (comma or closing brace)
is unambiguous. -/
theorem serVal_append_inj :
    ∀ (v1 v2 : JVal) (r1 r2 : Str),
      (∀ c, r1.head? = some c → c = ',' ∨ c = '\x7d') →
      (∀ c, r2.head? = some c → c = ',' ∨ c = '\x7d') →
      serVal v1 ++ r1 = serVal v2 ++ r2 → v1 = v2 ∧ r1 = r2 := by
  intro v1 v2 r1 r2 h1 h2 h
  cases v1 with
  | jstr s1 =>
    cases v2 with
    | jstr s2 =>
      obtain ⟨hs, hr⟩ := quoteChars_append_inj h
      exact ⟨by rw [hs], hr⟩
    | jnum n2 =>
      exfalso
      cases hnc : numChars n2 with
      | nil => exact numChars_ne_nil n2 hnc
      | cons d rest =>
        rw [show serVal (.jstr s1) = '"' :: (escapeChars s1 ++ ['"']) from rfl,
          show serVal (.jnum n2) = numChars n2 from rfl, hnc] at h
        simp only [List.cons_append, List.append_assoc, List.cons.injEq] at h
        have hd := numChars_isDigit n2 d (by rw [hnc]; exact List.mem_cons_self d rest)
        rw [← h.1] at hd
        exact absurd hd (by decide)
    | jbool b2 =>
      exfalso
      cases b2 with
      | true =>
        rw [show serVal (.jstr s1) = '"' :: (escapeChars s1 ++ ['"']) from rfl,
          show serVal (.jbool true) = 't' :: 'r' :: 'u' :: 'e' :: [] from rfl] at h
        simp only [List.cons_append, List.append_assoc, List.cons.injEq] at h
        exact absurd h.1 (by decide)
      | false =>
        rw [show serVal (.jstr s1) = '"' :: (escapeChars s1 ++ ['"']) from rfl,
          show serVal (.jbool false) = 'f' :: 'a' :: 'l' :: 's' :: 'e' :: [] from rfl] at h
        simp only [List.cons_append, List.append_assoc, List.cons.injEq] at h
        exact absurd h.1 (by decide)
  | jnum n1 =>
    cases v2 with
    | jstr s2 =>
      exfalso
      cases hnc : numChars n1 with
      | nil => exact numChars_ne_nil n1 hnc
      | cons d rest =>
        rw [show serVal (.jnum n1) = numChars n1 from rfl,
          show serVal (.jstr s2) = '"' :: (escapeChars s2 ++ ['"']) from rfl, hnc] at h
        simp only [List.cons_append, List.append_assoc, List.cons.injEq] at h
        have hd := numChars_isDigit n1 d (by rw [hnc]; exact List.mem_cons_self d rest)
        rw [h.1] at hd
        exact absurd hd (by decide)
    | jnum n2 =>
      rw [show serVal (.jnum n1) = numChars n1 from rfl,
        show serVal (.jnum n2) = numChars n2 from rfl] at h
      obtain ⟨hab, hr⟩ := digits_munch (numChars n1) (numChars_isDigit n1)
        (numChars n2) (numChars_isDigit n2) r1 r2
        (fun c hc => delim_not_digit (h1 c hc))
        (fun c hc => delim_not_digit (h2 c hc)) h
      exact ⟨by rw [numChars_inj hab], hr⟩
    | jbool b2 =>
      exfalso
      cases hnc : numChars n1 with
      | nil => exact numChars_ne_nil n1 hnc
      | cons d rest =>
        have hd := numChars_isDigit n1 d (by rw [hnc]; exact List.mem_cons_self d rest)
        cases b2 with
        | true =>
          rw [show serVal (.jnum n1) = numChars n1 from rfl,
            show serVal (.jbool true) = 't' :: 'r' :: 'u' :: 'e' :: [] from rfl,
            hnc] at h
          simp only [List.cons_append, List.append_assoc, List.cons.injEq] at h
          rw [h.1] at hd
          exact absurd hd (by decide)
        | false =>
          rw [show serVal (.jnum n1) = numChars n1 from rfl,
            show serVal (.jbool false) = 'f' :: 'a' :: 'l' :: 's' :: 'e' :: [] from rfl,
            hnc] at h
          simp only [List.cons_append, List.append_assoc, List.cons.injEq] at h
          rw [h.1] at hd
          exact absurd hd (by decide)
  | jbool b1 =>
    cases v2 with
    | jstr s2 =>
      exfalso
      cases b1 with
      | true =>
        rw [show serVal (.jbool true) = 't' :: 'r' :: 'u' :: 'e' :: [] from rfl,
          show serVal (.jstr s2) = '"' :: (escapeChars s2 ++ ['"']) from rfl] at h
        simp only [List.cons_append, List.append_assoc, List.cons.injEq] at h
        exact absurd h.1 (by decide)
      | false =>
        rw [show serVal (.jbool false) = 'f' :: 'a' :: 'l' :: 's' :: 'e' :: [] from rfl,
          show serVal (.jstr s2) = '"' :: (escapeChars s2 ++ ['"']) from rfl] at h
        simp only [List.cons_append, List.append_assoc, List.cons.injEq] at h
        exact absurd h.1 (by decide)
    | jnum n2 =>
      exfalso
      cases hnc : numChars n2 with
      | nil => exact numChars_ne_nil n2 hnc
      | cons d rest =>
        have hd := numChars_isDigit n2 d (by rw [hnc]; exact List.mem_cons_self d rest)
        cases b1 with
        | true =>
          rw [show serVal (.jbool true) = 't' :: 'r' :: 'u' :: 'e' :: [] from rfl,
            show serVal (.jnum n2) = numChars n2 from rfl, hnc] at h
          simp only [List.cons_append, List.append_assoc, List.cons.injEq] at h
          rw [← h.1] at hd
          exact absurd hd (by decide)
        | false =>
          rw [show serVal (.jbool false) = 'f' :: 'a' :: 'l' :: 's' :: 'e' :: [] from rfl,
            show serVal (.jnum n2) = numChars n2 from rfl, hnc] at h
          simp only [List.cons_append, List.append_assoc, List.cons.injEq] at h
          rw [← h.1] at hd
          exact absurd hd (by decide)
    | jbool b2 =>
      cases b1 with
      | true =>
        cases b2 with
        | true =>
          rw [show serVal (.jbool true) = "true".data from rfl] at h
          exact ⟨rfl, List.append_cancel_left h⟩
        | false =>
          exfalso
          rw [show serVal (.jbool true) = 't' :: 'r' :: 'u' :: 'e' :: [] from rfl,
            show serVal (.jbool false) = 'f' :: 'a' :: 'l' :: 's' :: 'e' :: [] from rfl] at h
          simp only [List.cons_append, List.append_assoc, List.cons.injEq] at h
          exact absurd h.1 (by decide)
      | false =>
        cases b2 with
        | true =>
          exfalso
          rw [show serVal (.jbool false) = 'f' :: 'a' :: 'l' :: 's' :: 'e' :: [] from rfl,
            show serVal (.jbool true) = 't' :: 'r' :: 'u' :: 'e' :: [] from rfl] at h
          simp only [List.cons_append, List.append_assoc, List.cons.injEq] at h
          exact absurd h.1 (by decide)
        | false =>
          rw [show serVal (.jbool false) = "false".data from rfl] at h
          exact ⟨rfl, List.append_cancel_left h⟩

/-- A serialized property (quoted name, colon, value) followed by a delimiter
is unambiguous. -/
theorem serProp_append_inj {p1 p2 : Str × JVal} {r1 r2 : Str}
    (h1 : ∀ c, r1.head? = some c → c = ',' ∨ c = '\x7d')
    (h2 : ∀ c, r2.head? = some c → c = ',' ∨ c = '\x7d')
    (h : serProp p1 ++ r1 = serProp p2 ++ r2) : p1 = p2 ∧ r1 = r2 := by
  unfold serProp at h
  simp only [List.append_assoc, List.cons_append] at h
  obtain ⟨hk, htail⟩ := quoteChars_append_inj h
  rw [List.cons.injEq] at htail
  obtain ⟨hv, hr⟩ := serVal_append_inj p1.2 p2.2 r1 r2 h1 h2 htail.2
  constructor
  · cases p1
    cases p2
    simp only at hk hv
    rw [hk, hv]
  · exact hr

theorem serProps_cons_head (p : Str × JVal) (ps : List (Str × JVal)) :
    ∃ t, serProps (p :: ps) = '"' :: t := by
  cases ps with
  | nil => exact ⟨_, rfl⟩
  | cons q qs => exact ⟨_, rfl⟩

/-- The comma-joined property list inside the braces is unambiguous. -/
theorem serProps_close_inj :
    ∀ (l1 l2 : List (Str × JVal)),
      serProps l1 ++ ['\x7d'] = serProps l2 ++ ['\x7d'] → l1 = l2 := by
  intro l1
  induction l1 with
  | nil =>
    intro l2 h
    cases l2 with
    | nil => rfl
    | cons p2 ps2 =>
      exfalso
      obtain ⟨t, ht⟩ := serProps_cons_head p2 ps2
      rw [show serProps ([] : List (Str × JVal)) = [] from rfl, List.nil_append, ht,
        List.cons_append, List.cons.injEq] at h
      exact absurd h.1 (by decide)
  | cons p ps ih =>
    intro l2 h
    cases l2 with
    | nil =>
      exfalso
      obtain ⟨t, ht⟩ := serProps_cons_head p ps
      rw [show serProps ([] : List (Str × JVal)) = [] from rfl, List.nil_append, ht,
        List.cons_append, List.cons.injEq] at h
      exact absurd h.1 (by decide)
    | cons p2 ps2 =>
      cases ps with
      | nil =>
        cases ps2 with
        | nil =>
          rw [show serProps [p] = serProp p from rfl,
            show serProps [p2] = serProp p2 from rfl] at h
          obtain ⟨hp, -⟩ := serProp_append_inj head_delim_brace head_delim_brace h
          rw [hp]
        | cons q2 qs2 =>
          exfalso
          rw [show serProps [p] = serProp p from rfl,
            show serProps (p2 :: q2 :: qs2) =
              serProp p2 ++ ',' :: serProps (q2 :: qs2) from rfl,
            List.append_assoc, List.cons_append] at h
          obtain ⟨-, hr⟩ := serProp_append_inj head_delim_brace
            (head_delim_comma _) h
          rw [List.cons.injEq] at hr
          exact absurd hr.1 (by decide)
      | cons q qs =>
        cases ps2 with
        | nil =>
          exfalso
          rw [show serProps [p2] = serProp p2 from rfl,
            show serProps (p :: q :: qs) =
              serProp p ++ ',' :: serProps (q :: qs) from rfl,
            List.append_assoc, List.cons_append] at h
          obtain ⟨-, hr⟩ := serProp_append_inj (head_delim_comma _)
            head_delim_brace h
          rw [List.cons.injEq] at hr
          exact absurd hr.1 (by decide)
        | cons q2 qs2 =>
          rw [show serProps (p :: q :: qs) =
              serProp p ++ ',' :: serProps (q :: qs) from rfl,
            show serProps (p2 :: q2 :: qs2) =
              serProp p2 ++ ',' :: serProps (q2 :: qs2) from rfl,
            List.append_assoc, List.append_assoc, List.cons_append,
            List.cons_append] at h
          obtain ⟨hp, hr⟩ := serProp_append_inj (head_delim_comma _)
            (head_delim_comma _) h
          rw [List.cons.injEq] at hr
          rw [hp, ih (q2 :: qs2) hr.2]

/-- `getCacheKey` is injective on ordered property lists. -/
theorem getCacheKey_inj {l1 l2 : List (Str × JVal)}
    (h : getCacheKey l1 = getCacheKey l2) : l1 = l2 := by
  unfold getCacheKey at h
  rw [List.cons.injEq] at h
  exact serProps_close_inj l1 l2 h.2

/-- C2 counterexample: two value-equal parameter sets (one a permutation of
the other) whose keys differ. -/
theorem C2_counterexample_order_dependent :
    ([("a".data, JVal.jnum 1), ("b".data, JVal.jnum 2)] : List (Str × JVal)).Perm
        [("b".data, JVal.jnum 2), ("a".data, JVal.jnum 1)] ∧
      getCacheKey [("a".data, JVal.jnum 1), ("b".data, JVal.jnum 2)] ≠
        getCacheKey [("b".data, JVal.jnum 2), ("a".data, JVal.jnum 1)] := by
  refine ⟨by decide, by decide⟩

/-- C2 amended: `getCacheKey` determines and is determined by the *ordered*
parameter list — two parameter sets get the same key exactly when they have
the same properties with the same values in the same insertion order (so
value-unequal sets never collide, while value-equal sets serialized in
different property orders get different keys). -/
theorem C2_cache_key_eq_iff_ordered :
    ∀ (P1 P2 : List (Str × JVal)), getCacheKey P1 = getCacheKey P2 ↔ P1 = P2 :=
  fun _ _ => ⟨getCacheKey_inj, fun h => by rw [h]⟩

end Insight
